import Mathlib

/-!
Verification of the dnsgate domain-set reconciliation engine
(src/dnsgate/dnsgate.py) against its natural-language specification.

Python byte strings are embedded as `List Char` (the inputs of interest are
ASCII; UTF-8 byte order coincides with codepoint order, so lexicographic
comparisons agree).  Python sets are embedded as Lean lists, with `Nodup`
hypotheses where set-ness matters; membership is the observable.  Fallible
code (Python exceptions, `quit(1)`) is embedded with `Option`/`Except`.
-/

namespace Dnsgate

/-- A domain (a Python byte string) is a list of characters. -/
abbrev Domain := List Char

/-- Splitting a byte string at every character satisfying `p`, keeping empty
pieces, exactly like Python's `bytes.split(sep)` for a one-byte separator
(`splitOnPred (fun c => c == sep)`). -/
def splitOnPred (p : Char → Bool) : List Char → List (List Char)
  | [] => [[]]
  | c :: rest =>
    match splitOnPred p rest with
    | [] => [[c]]
    | h :: t => if p c then [] :: h :: t else (c :: h) :: t

/-- Joining pieces with a one-character separator, like Python's
`sep.join(pieces)`. -/
def joinChar (sep : Char) : List (List Char) → List Char
  | [] => []
  | [x] => x
  | x :: y :: rest => x ++ sep :: joinChar sep (y :: rest)

/-- The characters Python's `bytes.split()` / `bytes.strip()` treat as
whitespace. -/
def pyWhitespaceChars : List Char := [' ', '\t', '\n', '\r', '\x0b', '\x0c']

/-- Test for Python byte-string whitespace. -/
def isPyWs (c : Char) : Bool := pyWhitespaceChars.contains c

/-- Python's `bytes.strip()`: drop leading and trailing whitespace. -/
def pyStrip (l : List Char) : List Char :=
  ((l.dropWhile isPyWs).reverse.dropWhile isPyWs).reverse

/-- Python's `bytes.split()` with no argument: split on whitespace runs,
discarding empty pieces. -/
def pySplitWs (l : List Char) : List (List Char) :=
  (splitOnPred isPyWs l).filter (fun x => !x.isEmpty)

/-- Python's `bytes.splitlines()` for byte strings: lines are terminated by
LF, CR, or CRLF, and a final unterminated line is kept.  Auxiliary
accumulator version. -/
def pySplitlinesAux : List Char → List Char → List (List Char)
  | [], acc => if acc.isEmpty then [] else [acc.reverse]
  | '\r' :: '\n' :: rest, acc => acc.reverse :: pySplitlinesAux rest []
  | '\r' :: rest, acc => acc.reverse :: pySplitlinesAux rest []
  | '\n' :: rest, acc => acc.reverse :: pySplitlinesAux rest []
  | c :: rest, acc => pySplitlinesAux rest (c :: acc)

/-- Python's `bytes.splitlines()`. -/
def pySplitlines (l : List Char) : List (List Char) := pySplitlinesAux l []

/-- Embeds `remove_comments_from_bytes`: keep the longest prefix of the line
that contains no `#` (the source loops over characters and breaks at the
first `#`). -/
def remove_comments_from_bytes (l : List Char) : List Char :=
  l.takeWhile (fun c => c != '#')

/-- Embeds the idiom `b'.'.join(list(filter(None, line.split(b'.'))))` used
by both extractors: split the token on dots, drop empty labels, rejoin. -/
def normalizeDots (tok : List Char) : Domain :=
  joinChar '.' ((splitOnPred (fun c => c == '.') tok).filter (fun x => !x.isEmpty))

/-- The first stage of the per-line body of
`extract_domain_set_from_hosts_format_bytes`: expand tabs, collapse
whitespace runs to single spaces, strip, remove comments. -/
def hostsLineResidue (line : List Char) : List Char :=
  remove_comments_from_bytes
    (pyStrip (joinChar ' ' (pySplitWs (line.map (fun c => if c == '\t' then ' ' else c)))))

/-- Embeds the per-line body of `extract_domain_set_from_hosts_format_bytes`:
if the collapsed, comment-stripped residue contains a space, the second
space-separated field is the domain token (normalized on dots); otherwise the
line contributes nothing.  The index `[1]` always exists when a space is
present, embedded with `getD`. -/
def processHostsLine (line : List Char) : Option Domain :=
  if ' ' ∈ hostsLineResidue line then
    some (normalizeDots
      ((splitOnPred (fun c => c == ' ') (hostsLineResidue line)).getD 1 []))
  else
    none

/-- Embeds `extract_domain_set_from_hosts_format_bytes`: split the payload on
LF and collect the per-line domains into a set (`dedup`). -/
def extract_domain_set_from_hosts_format_bytes (bs : List Char) : List Domain :=
  ((splitOnPred (fun c => c == '\n') bs).filterMap processHostsLine).dedup

/-- Embeds the per-line body of `extract_domain_set_from_dnsgate_format_file`:
strip the line, remove comments, normalize dots. -/
def processDnsgateLine (line : List Char) : Domain :=
  normalizeDots (remove_comments_from_bytes (pyStrip line))

/-- Embeds `extract_domain_set_from_dnsgate_format_file` applied to the bytes
of the file: `splitlines`, process each line, keep nonempty results as a set. -/
def extract_domain_set_from_dnsgate_format_file (bs : List Char) : List Domain :=
  (((pySplitlines bs).map processDnsgateLine).filter (fun d => !d.isEmpty)).dedup

/-- Embeds `validate_domain_list`, parameterized by the external IDNA codec
`idna` (an external collaborator: `hostname.encode('idna')`), which either
re-encodes a domain or rejects it (`none`); rejected entries are skipped. -/
def validate_domain_list (idna : Domain → Option Domain) (domains : List Domain) :
    List Domain :=
  (domains.filterMap idna).dedup

/-! ### Lexicographic comparison of byte strings and of lists of byte strings

Python compares `bytes` values lexicographically by byte, and lists of bytes
values lexicographically element-wise (equality first, then `<`, shorter
proper prefixes being smaller).  `lexLtBy lt` is that strict order for an
element order `lt`. -/

/-- Strict lexicographic order on lists, parameterized by a strict order on
elements; mirrors Python's sequence comparison. -/
def lexLtBy {α : Type} [DecidableEq α] (lt : α → α → Bool) : List α → List α → Bool
  | [], [] => false
  | [], _ :: _ => true
  | _ :: _, [] => false
  | a :: as, b :: bs => if lt a b then true else if a = b then lexLtBy lt as bs else false

/-- Strict byte-wise comparison of byte strings, Python's `bytes.__lt__`. -/
def bytesLt (a b : List Char) : Bool := lexLtBy (fun x y => decide (x < y)) a b

/-- Strict comparison of reversed-label lists, Python's `list.__lt__` on
lists of byte strings. -/
def labelListLt (a b : List (List Char)) : Bool := lexLtBy bytesLt a b

/-- The non-strict total order `a ≤ b ↔ ¬ b < a` induced by `labelListLt`;
sorting by it is the same function as Python's `list.sort()` (which sorts by
the strict order). -/
def labelListLe (a b : List (List Char)) : Bool := !(labelListLt b a)

/-- Embeds `group_by_tld`: reverse each domain's label list, sort the
reversed-label lists lexicographically, reverse each back and rejoin.
Python's stable `list.sort()` is embedded as insertion sort: the comparison
is a linear order on the keys and equal keys mean equal list entries, so
every correct sort produces the same output list. -/
def group_by_tld (domains : List Domain) : List Domain :=
  let reversed_domains := domains.map (fun d => (splitOnPred (fun c => c == '.') d).reverse)
  let sorted := reversed_domains.insertionSort (fun a b => labelListLe a b = true)
  sorted.map (fun rd => joinChar '.' rd.reverse)

/-! ### Public-suffix reduction -/

/-- Modelled from the spec: `extract_psl_domain` delegates to the external
`tldextract` collaborator, whose public-suffix dataset is not part of this
repository.  Following §4.2, for a dataset of public suffixes (as label
lists) we find the longest suffix of the domain's label list that is in the
dataset and keep one additional label to its left; a domain matching no
dataset entry is returned unchanged. -/
def toPublicRoot (dataset : List (List (List Char))) (d : Domain) : Domain :=
  let ls := splitOnPred (fun c => c == '.') d
  let matching := dataset.filter (fun s => s.isSuffixOf ls)
  let best := matching.foldl (fun acc s => if acc.length < s.length then s else acc) []
  if matching.isEmpty then d
  else joinChar '.' (ls.drop (ls.length - (best.length + 1)))

/-- Embeds `strip_to_psl`, parameterized by the public-root function `psl`
(the external `extract_psl_domain` collaborator): map every domain to its
public root, collecting into a set. -/
def strip_to_psl (psl : Domain → Domain) (domains : List Domain) : List Domain :=
  (domains.map psl).dedup

/-! ### Redundancy pruning

`prune_redundant_rules` iterates over a snapshot of the set, and for each
domain joins ever longer prefixes of its reversed (most-significant-first)
label list and tests them for membership in the snapshot, calling
`domains.remove(domain)` on a hit.  Python's `set.remove` raises `KeyError`
when the element is absent, so the embedding returns `Option`, `none`
standing for the raised exception aborting the run. -/

/-- The strings `b'.'.join(domain_parts_msb[0:index])` tested by the inner
loop of `prune_redundant_rules`, for `index` in `range(len(domain_parts_msb))`. -/
def checkedJoins (d : Domain) : List Domain :=
  let msb := (splitOnPred (fun c => c == '.') d).reverse
  (List.range msb.length).map (fun i => joinChar '.' (msb.take i))

/-- Embeds Python's `set.remove`: remove the element, or raise (`none`) when
it is absent. -/
def pySetRemove (working : List Domain) (d : Domain) : Option (List Domain) :=
  if d ∈ working then some (working.erase d) else none

/-- The inner loop of `prune_redundant_rules` for one domain `d`: walk its
checked joins and remove `d` from the working set at every join present in
the snapshot `orig`. -/
def pruneDomainStep (orig : List Domain) (d : Domain) (working : List Domain) :
    Option (List Domain) :=
  (checkedJoins d).foldlM
    (fun w c => if c ∈ orig then pySetRemove w d else some w) working

/-- Embeds `prune_redundant_rules`: iterate over the snapshot of the input
set, mutating the working set; `none` is the propagated `KeyError`. -/
def prune_redundant_rules (domains : List Domain) : Option (List Domain) :=
  domains.foldlM (fun w d => pruneDomainStep domains d w) domains

/-! ### Reconciliation and generation (the core of `generate`) -/

/-- The resolver output mode from the persisted configuration. -/
inductive Mode
  | dnsmasq
  | hosts
deriving DecidableEq

/-- Fatal conditions of a `generate` run: the two `quit(1)` configuration
aborts and the propagated `KeyError` of the pruner.  Each terminates the run
before the output file is written. -/
inductive GenError
  | blockAtPslInHostsMode
  | pruneKeyError
  | emptyBlacklist
deriving DecidableEq

/-- The tail of reconciliation common to both branches (lines 838-860 of the
source): subtract exact whitelist matches, then, when the custom blacklist is
nonempty, union it in unconditionally. -/
def reconcileFinal (domains_whitelist domains_blacklist combined : List Domain) :
    List Domain :=
  let subtracted := combined.filter (fun d => d ∉ domains_whitelist)
  if domains_blacklist.isEmpty then subtracted else subtracted ∪ domains_blacklist

/-- The `block_at_psl` branch of `generate` (lines 796-831): strip to public
roots; when the whitelist is nonempty subtract it exactly and remove the
public root of every whitelisted domain; then re-add every original full
hostname that is neither whitelisted nor already covered. -/
def reconcilePsl (psl : Domain → Domain)
    (domains_combined_orig domains_whitelist : List Domain) : List Domain :=
  let stripped := strip_to_psl psl domains_combined_orig
  let afterWl :=
    if domains_whitelist.isEmpty then stripped
    else
      let subtracted := stripped.filter (fun d => d ∉ domains_whitelist)
      domains_whitelist.foldl
        (fun c w => if psl w ∈ c then c.erase (psl w) else c) subtracted
  domains_combined_orig.foldl
    (fun c od =>
      if od ∉ domains_whitelist ∧ od ∉ c ∧ psl od ∉ c then od :: c else c)
    afterWl

/-- Embeds lines 794-860 of `generate` — the rule-set reconciler of §4.3.
Inputs are the already-validated combined source blacklist, the validated
whitelist, and the custom (local override) blacklist; `psl` is the external
public-root collaborator. -/
def reconcile (psl : Domain → Domain)
    (domains_combined_orig domains_whitelist domains_blacklist : List Domain)
    (block_at_psl : Bool) (mode : Mode) : Except GenError (List Domain) :=
  if block_at_psl = true ∧ mode ≠ Mode.hosts then
    Except.ok (reconcileFinal domains_whitelist domains_blacklist
      (reconcilePsl psl domains_combined_orig domains_whitelist))
  else if block_at_psl = true ∧ mode = Mode.hosts then
    Except.error GenError.blockAtPslInHostsMode
  else
    Except.ok (reconcileFinal domains_whitelist domains_blacklist
      domains_combined_orig)

/-- Embeds the core pipeline of `generate` (lines 740-890): validate the
whitelist (when nonempty) and the combined source blacklist, reconcile,
re-validate, prune, group, and abort (before writing any output) when the
final list is empty.  The returned list is the final rule set the renderer
would write; an error means the run terminated with nothing written. -/
def generate (psl : Domain → Domain) (idna : Domain → Option Domain)
    (domains_combined_raw domains_whitelist_raw domains_blacklist : List Domain)
    (block_at_psl : Bool) (mode : Mode) : Except GenError (List Domain) :=
  match reconcile psl (validate_domain_list idna domains_combined_raw)
      (if domains_whitelist_raw.isEmpty then domains_whitelist_raw
        else validate_domain_list idna domains_whitelist_raw)
      domains_blacklist block_at_psl mode with
  | Except.error e => Except.error e
  | Except.ok combined =>
    match prune_redundant_rules (validate_domain_list idna combined) with
    | none => Except.error GenError.pruneKeyError
    | some pruned =>
      if (group_by_tld pruned).isEmpty then Except.error GenError.emptyBlacklist
      else Except.ok (group_by_tld pruned)

/-- The reversed (most-significant-first) label list of a domain, the sort
key of `group_by_tld`. -/
def revLabels (d : Domain) : List (List Char) :=
  (splitOnPred (fun c => c == '.') d).reverse

/-- The comparison that `group_by_tld` sorts by, pulled back to domains:
reversed-label lists compared lexicographically, labels compared as byte
strings. -/
def tldKeyLe (a b : Domain) : Prop :=
  labelListLe (revLabels a) (revLabels b) = true

/-- The number of checked joins of `d` that are in the snapshot `orig`. -/
def checkedCount (orig : List Domain) (d : Domain) : Nat :=
  (checkedJoins d).countP (fun c => decide (c ∈ orig))

/-- The domain contains no comment marker. -/
def noHashChar (d : Domain) : Bool := d.all (fun c => c != '#')

/-- The domain contains no (Python) whitespace. -/
def noWhitespace (d : Domain) : Bool := d.all (fun c => !(isPyWs c))

/-- Every dot-separated label of the domain is nonempty. -/
def noEmptyLabels (d : Domain) : Bool :=
  (splitOnPred (fun c => c == '.') d).all (fun l => !l.isEmpty)

/-- A domain is a proper ancestor of another when its label list is a strict
suffix of the other's label list (the spec's notion of a broader rule
covering a subdomain). -/
def isProperAncestor (anc d : Domain) : Bool :=
  decide (splitOnPred (fun c => c == '.') anc ≠ splitOnPred (fun c => c == '.') d) &&
    (splitOnPred (fun c => c == '.') anc).isSuffixOf (splitOnPred (fun c => c == '.') d)

/-! ### Basic lemmas about splitting and joining -/

theorem splitOnPred_ne_nil (p : Char → Bool) (l : List Char) : splitOnPred p l ≠ [] := by
  induction l with
  | nil => simp [splitOnPred]
  | cons c rest ih =>
    simp only [splitOnPred]
    cases h : splitOnPred p rest with
    | nil => simp
    | cons hd tl => dsimp only; split <;> simp

theorem joinChar_splitOnPred (sep : Char) (l : List Char) :
    joinChar sep (splitOnPred (fun c => c == sep) l) = l := by
  induction l with
  | nil => rfl
  | cons c rest ih =>
    simp only [splitOnPred]
    cases h : splitOnPred (fun c => c == sep) rest with
    | nil => exact absurd h (splitOnPred_ne_nil _ _)
    | cons hd tl =>
      rw [h] at ih
      dsimp only
      by_cases hc : c = sep
      · have hcb : (c == sep) = true := by simp [hc]
        rw [if_pos hcb]
        subst hc
        simp [joinChar, ih]
      · have hcb : ¬((c == sep) = true) := by simp [hc]
        rw [if_neg hcb]
        cases tl with
        | nil =>
          simp only [joinChar] at ih ⊢
          rw [ih]
        | cons t1 t2 =>
          simp only [joinChar] at ih ⊢
          simp [ih]

theorem splitOnPred_eq_self (p : Char → Bool) (l : List Char)
    (h : ∀ c ∈ l, p c = false) : splitOnPred p l = [l] := by
  induction l with
  | nil => rfl
  | cons c rest ih =>
    have hrest : splitOnPred p rest = [rest] := ih (fun c hc => h c (List.mem_cons_of_mem _ hc))
    simp only [splitOnPred, hrest]
    simp [h c (List.mem_cons_self _ _)]

theorem splitOnPred_append_sep (p : Char → Bool) (piece tail : List Char) (sep' : Char)
    (hpiece : ∀ c ∈ piece, p c = false) (hsep : p sep' = true) :
    splitOnPred p (piece ++ sep' :: tail) = piece :: splitOnPred p tail := by
  induction piece with
  | nil =>
    simp only [List.nil_append, splitOnPred]
    cases h : splitOnPred p tail with
    | nil => exact absurd h (splitOnPred_ne_nil _ _)
    | cons hd tl => simp [hsep]
  | cons c cs ih =>
    have hcs : ∀ c ∈ cs, p c = false := fun c hc => hpiece c (List.mem_cons_of_mem _ hc)
    simp only [List.cons_append, splitOnPred, List.append_eq, ih hcs]
    simp [hpiece c (List.mem_cons_self _ _)]

theorem splitOnPred_joinChar (sep : Char) (ps : List (List Char)) (hne : ps ≠ [])
    (hps : ∀ piece ∈ ps, ∀ c ∈ piece, (c == sep) = false) :
    splitOnPred (fun c => c == sep) (joinChar sep ps) = ps := by
  induction ps with
  | nil => exact absurd rfl hne
  | cons x rest ih =>
    cases rest with
    | nil =>
      simp only [joinChar]
      exact splitOnPred_eq_self _ _ (hps x (List.mem_cons_self _ _))
    | cons y t =>
      have hx : ∀ c ∈ x, (c == sep) = false := hps x (List.mem_cons_self _ _)
      have hrest : ∀ piece ∈ y :: t, ∀ c ∈ piece, (c == sep) = false :=
        fun piece hp => hps piece (List.mem_cons_of_mem _ hp)
      simp only [joinChar]
      rw [splitOnPred_append_sep _ _ _ _ hx (by simp)]
      rw [ih (by simp) hrest]

theorem splitOnPred_mem_pred (p : Char → Bool) (l : List Char) (piece : List Char)
    (hp : piece ∈ splitOnPred p l) : ∀ c ∈ piece, p c = false := by
  induction l generalizing piece with
  | nil =>
    simp [splitOnPred] at hp
    subst hp; intro c hc; cases hc
  | cons a rest ih =>
    cases h : splitOnPred p rest with
    | nil => exact absurd h (splitOnPred_ne_nil _ _)
    | cons hd tl =>
      simp only [splitOnPred, h] at hp
      by_cases ha : p a = true
      · rw [if_pos ha] at hp
        rcases List.mem_cons.mp hp with hp | hp
        · intro c hc; rw [hp] at hc; cases hc
        · exact ih piece (h ▸ hp)
      · rw [if_neg ha] at hp
        rcases List.mem_cons.mp hp with hp | hp
        · subst hp
          intro c hc
          rcases List.mem_cons.mp hc with rfl | hc
          · exact Bool.eq_false_iff.mpr ha
          · exact ih hd (h ▸ List.mem_cons_self _ _) c hc
        · exact ih piece (h ▸ List.mem_cons_of_mem _ hp)

theorem splitOnPred_mem_subset (p : Char → Bool) (l : List Char) (piece : List Char)
    (hp : piece ∈ splitOnPred p l) : ∀ c ∈ piece, c ∈ l := by
  induction l generalizing piece with
  | nil =>
    simp [splitOnPred] at hp
    subst hp; intro c hc; cases hc
  | cons a rest ih =>
    cases h : splitOnPred p rest with
    | nil => exact absurd h (splitOnPred_ne_nil _ _)
    | cons hd tl =>
      simp only [splitOnPred, h] at hp
      by_cases ha : p a = true
      · rw [if_pos ha] at hp
        rcases List.mem_cons.mp hp with hp | hp
        · intro c hc; rw [hp] at hc; cases hc
        · exact fun c hc => List.mem_cons_of_mem _ (ih piece (h ▸ hp) c hc)
      · rw [if_neg ha] at hp
        rcases List.mem_cons.mp hp with hp | hp
        · subst hp
          intro c hc
          rcases List.mem_cons.mp hc with rfl | hc
          · exact List.mem_cons_self _ _
          · exact List.mem_cons_of_mem _ (ih hd (h ▸ List.mem_cons_self _ _) c hc)
        · exact fun c hc =>
            List.mem_cons_of_mem _ (ih piece (h ▸ List.mem_cons_of_mem _ hp) c hc)

theorem mem_joinChar (sep : Char) (ps : List (List Char)) (c : Char)
    (hc : c ∈ joinChar sep ps) : c = sep ∨ ∃ piece ∈ ps, c ∈ piece := by
  induction ps with
  | nil => cases hc
  | cons x rest ih =>
    cases rest with
    | nil =>
      right; exact ⟨x, List.mem_cons_self _ _, hc⟩
    | cons y t =>
      simp only [joinChar] at hc
      rcases List.mem_append.mp hc with hc | hc
      · right; exact ⟨x, List.mem_cons_self _ _, hc⟩
      · rcases List.mem_cons.mp hc with rfl | hc
        · left; rfl
        · rcases ih hc with h | ⟨piece, hp, hcp⟩
          · left; exact h
          · right; exact ⟨piece, List.mem_cons_of_mem _ hp, hcp⟩

theorem getD_eq_or_mem {α : Type} [Inhabited α] (l : List α) (n : Nat) (d : α) :
    l.getD n d = d ∨ l.getD n d ∈ l := by
  induction l generalizing n with
  | nil => left; rfl
  | cons x xs ih =>
    cases n with
    | zero => right; exact List.mem_cons_self _ _
    | succ m =>
      rcases ih m with h | h
      · left; exact h
      · right; exact List.mem_cons_of_mem _ h

theorem mem_pyStrip (l : List Char) (c : Char) (hc : c ∈ pyStrip l) : c ∈ l := by
  unfold pyStrip at hc
  rw [List.mem_reverse] at hc
  have h1 := (List.dropWhile_sublist (l := (l.dropWhile isPyWs).reverse) isPyWs).mem hc
  rw [List.mem_reverse] at h1
  exact (List.dropWhile_sublist isPyWs).mem h1

/-! ### Laws of the lexicographic comparison -/

theorem lexLtBy_trans {α : Type} [DecidableEq α] (lt : α → α → Bool)
    (htrans : ∀ x y z, lt x y = true → lt y z = true → lt x z = true)
    (l1 l2 l3 : List α) (h12 : lexLtBy lt l1 l2 = true) (h23 : lexLtBy lt l2 l3 = true) :
    lexLtBy lt l1 l3 = true := by
  induction l1 generalizing l2 l3 with
  | nil =>
    cases l2 with
    | nil => simp [lexLtBy] at h12
    | cons b bs =>
      cases l3 with
      | nil => simp [lexLtBy] at h23
      | cons c cs => simp [lexLtBy]
  | cons a as ih =>
    cases l2 with
    | nil => simp [lexLtBy] at h12
    | cons b bs =>
      cases l3 with
      | nil => simp [lexLtBy] at h23
      | cons c cs =>
        simp only [lexLtBy] at h12 h23 ⊢
        by_cases hab : lt a b = true
        · by_cases hbc : lt b c = true
          · simp [htrans a b c hab hbc]
          · rw [if_neg hbc] at h23
            by_cases hbceq : b = c
            · subst hbceq; simp [hab]
            · simp [hbceq] at h23
        · rw [if_neg hab] at h12
          by_cases habeq : a = b
          · subst habeq; rw [if_pos rfl] at h12
            by_cases hbc : lt a c = true
            · simp [hbc]
            · rw [if_neg hbc] at h23 ⊢
              by_cases haceq : a = c
              · subst haceq
                rw [if_pos rfl] at h23 ⊢
                exact ih bs cs h12 h23
              · simp [haceq] at h23
          · simp [habeq] at h12

theorem lexLtBy_asymm {α : Type} [DecidableEq α] (lt : α → α → Bool)
    (hasymm : ∀ x y, lt x y = true → lt y x = false)
    (l1 l2 : List α) (h : lexLtBy lt l1 l2 = true) : lexLtBy lt l2 l1 = false := by
  induction l1 generalizing l2 with
  | nil =>
    cases l2 with
    | nil => simp [lexLtBy] at h
    | cons b bs => simp [lexLtBy]
  | cons a as ih =>
    cases l2 with
    | nil => simp [lexLtBy] at h
    | cons b bs =>
      simp only [lexLtBy] at h ⊢
      by_cases hab : lt a b = true
      · have hba : lt b a = false := hasymm a b hab
        rw [hba]
        simp only [Bool.false_eq_true, if_false]
        by_cases hbaeq : b = a
        · subst hbaeq
          rw [hab] at hba
          cases hba
        · simp [hbaeq]
      · rw [if_neg hab] at h
        by_cases habeq : a = b
        · subst habeq
          rw [if_pos rfl] at h
          have hrec := ih bs h
          by_cases haa : lt a a = true
          · have := hasymm a a haa
            rw [haa] at this
            cases this
          · simp [haa, hrec]
        · simp [habeq] at h

theorem lexLtBy_conn {α : Type} [DecidableEq α] (lt : α → α → Bool)
    (hconn : ∀ x y, lt x y = false → lt y x = false → x = y)
    (l1 l2 : List α) (h12 : lexLtBy lt l1 l2 = false) (h21 : lexLtBy lt l2 l1 = false) :
    l1 = l2 := by
  induction l1 generalizing l2 with
  | nil =>
    cases l2 with
    | nil => rfl
    | cons b bs => simp [lexLtBy] at h12
  | cons a as ih =>
    cases l2 with
    | nil => simp [lexLtBy] at h21
    | cons b bs =>
      simp only [lexLtBy] at h12 h21
      by_cases hab : lt a b = true
      · rw [if_pos hab] at h12; cases h12
      · by_cases hba : lt b a = true
        · rw [if_pos hba] at h21; cases h21
        · have heq : a = b :=
            hconn a b (Bool.eq_false_iff.mpr hab) (Bool.eq_false_iff.mpr hba)
          subst heq
          rw [if_neg hab, if_pos rfl] at h12
          rw [if_neg hba, if_pos rfl] at h21
          rw [ih bs h12 h21]

theorem charLt_trans (x y z : Char) (h1 : decide (x < y) = true) (h2 : decide (y < z) = true) :
    decide (x < z) = true := by
  simp only [decide_eq_true_eq] at h1 h2 ⊢
  exact lt_trans h1 h2

theorem charLt_asymm (x y : Char) (h : decide (x < y) = true) : decide (y < x) = false := by
  simp only [decide_eq_true_eq] at h
  simp only [decide_eq_false_iff_not]
  exact lt_asymm h

theorem charLt_conn (x y : Char) (h1 : decide (x < y) = false) (h2 : decide (y < x) = false) :
    x = y := by
  simp only [decide_eq_false_iff_not] at h1 h2
  exact le_antisymm (le_of_not_lt h2) (le_of_not_lt h1)

theorem bytesLt_trans (x y z : List Char) (h1 : bytesLt x y = true) (h2 : bytesLt y z = true) :
    bytesLt x z = true :=
  lexLtBy_trans _ charLt_trans x y z h1 h2

theorem bytesLt_asymm (x y : List Char) (h : bytesLt x y = true) : bytesLt y x = false :=
  lexLtBy_asymm _ charLt_asymm x y h

theorem bytesLt_conn (x y : List Char) (h1 : bytesLt x y = false) (h2 : bytesLt y x = false) :
    x = y :=
  lexLtBy_conn _ charLt_conn x y h1 h2

theorem labelListLt_trans (x y z : List (List Char)) (h1 : labelListLt x y = true)
    (h2 : labelListLt y z = true) : labelListLt x z = true :=
  lexLtBy_trans _ bytesLt_trans x y z h1 h2

theorem labelListLt_asymm (x y : List (List Char)) (h : labelListLt x y = true) :
    labelListLt y x = false :=
  lexLtBy_asymm _ bytesLt_asymm x y h

theorem labelListLt_conn (x y : List (List Char)) (h1 : labelListLt x y = false)
    (h2 : labelListLt y x = false) : x = y :=
  lexLtBy_conn _ bytesLt_conn x y h1 h2

theorem labelListLe_total (a b : List (List Char)) :
    labelListLe a b = true ∨ labelListLe b a = true := by
  unfold labelListLe
  by_cases h : labelListLt b a = true
  · right
    rw [labelListLt_asymm b a h]
    rfl
  · left
    rw [Bool.eq_false_iff.mpr h]
    rfl

theorem labelListLe_trans (a b c : List (List Char)) (h1 : labelListLe a b = true)
    (h2 : labelListLe b c = true) : labelListLe a c = true := by
  unfold labelListLe at h1 h2 ⊢
  rw [Bool.not_eq_true'] at h1 h2 ⊢
  by_contra hca
  rw [Bool.not_eq_false] at hca
  by_cases hbc : labelListLt b c = true
  · have := labelListLt_trans b c a hbc hca
    rw [this] at h1
    cases h1
  · have heq : b = c := labelListLt_conn b c (Bool.eq_false_iff.mpr hbc) h2
    subst heq
    rw [hca] at h1
    cases h1

/-! ### Correctness of the grouper -/

theorem revLabels_joinChar (d : Domain) :
    revLabels (joinChar '.' ((splitOnPred (fun c => c == '.') d).reverse).reverse) =
      (splitOnPred (fun c => c == '.') d).reverse := by
  rw [List.reverse_reverse]
  unfold revLabels
  rw [splitOnPred_joinChar '.' _ (splitOnPred_ne_nil _ _)
    (fun piece hp c hc => splitOnPred_mem_pred _ _ _ hp c hc)]

theorem joinChar_revrev (d : Domain) :
    joinChar '.' ((splitOnPred (fun c => c == '.') d).reverse).reverse = d := by
  rw [List.reverse_reverse, joinChar_splitOnPred]

theorem group_by_tld_perm (l : List Domain) : (group_by_tld l).Perm l := by
  unfold group_by_tld
  have h1 := List.perm_insertionSort (fun a b => labelListLe a b = true)
    (l.map (fun d => (splitOnPred (fun c => c == '.') d).reverse))
  have h2 := h1.map (fun rd => joinChar '.' rd.reverse)
  rw [List.map_map] at h2
  have h3 : l.map ((fun rd => joinChar '.' rd.reverse) ∘
      (fun d => (splitOnPred (fun c => c == '.') d).reverse)) = l := by
    have : ∀ d ∈ l, ((fun rd => joinChar '.' rd.reverse) ∘
        (fun d => (splitOnPred (fun c => c == '.') d).reverse)) d = id d := by
      intro d _
      simp only [Function.comp_apply, id_eq]
      exact joinChar_revrev d
    rw [List.map_congr_left this, List.map_id]
  rw [h3] at h2
  exact h2

theorem group_by_tld_sorted (l : List Domain) : List.Sorted tldKeyLe (group_by_tld l) := by
  unfold group_by_tld
  have hs := @List.sorted_insertionSort (List (List Char))
    (fun a b => labelListLe a b = true) (fun a b => instDecidableEqBool _ _)
    ⟨labelListLe_total⟩ ⟨labelListLe_trans⟩
    (l.map (fun d => (splitOnPred (fun c => c == '.') d).reverse))
  unfold List.Sorted at hs ⊢
  rw [List.pairwise_map]
  refine hs.imp_of_mem ?_
  intro a b ha hb hr
  have ha' := (List.mem_insertionSort _).mp ha
  have hb' := (List.mem_insertionSort _).mp hb
  rcases List.mem_map.mp ha' with ⟨da, _, rfl⟩
  rcases List.mem_map.mp hb' with ⟨db, _, rfl⟩
  show tldKeyLe _ _
  unfold tldKeyLe
  rw [revLabels_joinChar da, revLabels_joinChar db]
  exact hr

/-! ### Behaviour of the pruner

Each iteration of the outer loop removes only the iterated domain itself, and
membership tests go against the snapshot, so the run of one domain is fully
described by how many of its checked joins lie in the snapshot: zero hits
leave the working set alone, one hit removes the domain, two or more hits
remove it and then raise `KeyError` on the second `set.remove`. -/

theorem innerFold_zero (orig : List Domain) (d : Domain) (checks : List Domain)
    (w : List Domain) (h : checks.countP (fun c => decide (c ∈ orig)) = 0) :
    checks.foldlM (fun w c => if c ∈ orig then pySetRemove w d else some w) w = some w := by
  induction checks generalizing w with
  | nil => rfl
  | cons c rest ih =>
    rw [List.countP_cons] at h
    by_cases hc : c ∈ orig
    · simp [hc] at h
    · rw [List.foldlM_cons, if_neg hc]
      simp only [Option.bind_eq_bind, Option.some_bind]
      exact ih w (by simpa [hc] using h)

theorem innerFold_cases (orig : List Domain) (d : Domain) (checks : List Domain)
    (w w' : List Domain) (hw : w.Nodup)
    (h : checks.foldlM (fun w c => if c ∈ orig then pySetRemove w d else some w) w
      = some w') :
    (checks.countP (fun c => decide (c ∈ orig)) = 0 ∧ w' = w) ∨
    (checks.countP (fun c => decide (c ∈ orig)) = 1 ∧ d ∈ w ∧ w' = w.erase d) := by
  induction checks generalizing w with
  | nil =>
    left
    refine ⟨rfl, ?_⟩
    simpa using h.symm
  | cons c rest ih =>
    rw [List.foldlM_cons] at h
    by_cases hc : c ∈ orig
    · rw [if_pos hc] at h
      unfold pySetRemove at h
      by_cases hd : d ∈ w
      · rw [if_pos hd] at h
        simp only [Option.bind_eq_bind, Option.some_bind] at h
        rcases ih (w.erase d) (hw.erase d) h with ⟨hcnt, rfl⟩ | ⟨hcnt, hmem, _⟩
        · right
          refine ⟨?_, hd, rfl⟩
          rw [List.countP_cons, hcnt]
          simp [hc]
        · exact absurd hmem (by simp [hw.mem_erase_iff])
      · rw [if_neg hd] at h
        simp at h
    · rw [if_neg hc] at h
      simp only [Option.bind_eq_bind, Option.some_bind] at h
      rcases ih w hw h with ⟨hcnt, hw'⟩ | ⟨hcnt, hmem, hw'⟩
      · left
        refine ⟨?_, hw'⟩
        rw [List.countP_cons, hcnt]
        simp [hc]
      · right
        refine ⟨?_, hmem, hw'⟩
        rw [List.countP_cons, hcnt]
        simp [hc]

theorem pruneDomainStep_zero (orig : List Domain) (d : Domain) (w : List Domain)
    (h : checkedCount orig d = 0) : pruneDomainStep orig d w = some w :=
  innerFold_zero orig d (checkedJoins d) w h

theorem pruneDomainStep_cases (orig : List Domain) (d : Domain) (w w' : List Domain)
    (hw : w.Nodup) (h : pruneDomainStep orig d w = some w') :
    (checkedCount orig d = 0 ∧ w' = w) ∨
    (checkedCount orig d = 1 ∧ d ∈ w ∧ w' = w.erase d) :=
  innerFold_cases orig d (checkedJoins d) w w' hw h

theorem pruneFold_sublist (orig : List Domain) (q : List Domain) :
    ∀ (w w' : List Domain), w.Nodup →
      q.foldlM (fun w d => pruneDomainStep orig d w) w = some w' → w'.Sublist w := by
  induction q with
  | nil =>
    intro w w' _ h
    simp only [List.foldlM_nil] at h
    cases h
    exact List.Sublist.refl _
  | cons d rest ih =>
    intro w w' hw h
    rw [List.foldlM_cons] at h
    cases h1 : pruneDomainStep orig d w with
    | none => rw [h1] at h; simp at h
    | some w1 =>
      rw [h1] at h
      simp only [Option.bind_eq_bind, Option.some_bind] at h
      have hsub1 : w1.Sublist w := by
        rcases pruneDomainStep_cases orig d w w1 hw h1 with ⟨_, rfl⟩ | ⟨_, _, rfl⟩
        · exact List.Sublist.refl _
        · exact List.erase_sublist _ _
      exact (ih w1 w' (hw.sublist hsub1) h).trans hsub1

theorem pruneFold_clean (orig : List Domain) (q : List Domain) :
    ∀ (w w' : List Domain), w.Nodup →
      q.foldlM (fun w d => pruneDomainStep orig d w) w = some w' →
      ∀ d ∈ q, d ∈ w' → checkedCount orig d = 0 := by
  induction q with
  | nil => intro w w' _ _ d hd; cases hd
  | cons d0 rest ih =>
    intro w w' hw h d hd hdw'
    rw [List.foldlM_cons] at h
    cases h1 : pruneDomainStep orig d0 w with
    | none => rw [h1] at h; simp at h
    | some w1 =>
      rw [h1] at h
      simp only [Option.bind_eq_bind, Option.some_bind] at h
      have hw1 : w1.Nodup := by
        rcases pruneDomainStep_cases orig d0 w w1 hw h1 with ⟨_, rfl⟩ | ⟨_, _, rfl⟩
        · exact hw
        · exact hw.erase d0
      rcases List.mem_cons.mp hd with rfl | hd
      · rcases pruneDomainStep_cases orig d w w1 hw h1 with ⟨hz, _⟩ | ⟨_, _, rfl⟩
        · exact hz
        · have hsub := pruneFold_sublist orig rest (w.erase d) w' hw1 h
          have : d ∈ w.erase d := hsub.subset hdw'
          exact absurd this (by simp [hw.mem_erase_iff])
      · exact ih w1 w' hw1 h d hd hdw'

theorem pruneFold_no_removal (orig : List Domain) (q : List Domain) :
    ∀ (w : List Domain), (∀ d ∈ q, checkedCount orig d = 0) →
      q.foldlM (fun w d => pruneDomainStep orig d w) w = some w := by
  induction q with
  | nil => intro w _; rfl
  | cons d rest ih =>
    intro w hq
    rw [List.foldlM_cons, pruneDomainStep_zero orig d w (hq d (List.mem_cons_self _ _))]
    simp only [Option.bind_eq_bind, Option.some_bind]
    exact ih w (fun d hd => hq d (List.mem_cons_of_mem _ hd))

theorem prune_some_sublist (l r : List Domain) (hl : l.Nodup)
    (h : prune_redundant_rules l = some r) : r.Sublist l :=
  pruneFold_sublist l l l r hl h

theorem prune_some_clean (l r : List Domain) (hl : l.Nodup)
    (h : prune_redundant_rules l = some r) : ∀ d ∈ r, checkedCount l d = 0 := by
  intro d hd
  exact pruneFold_clean l l l r hl h d ((prune_some_sublist l r hl h).subset hd) hd

theorem prune_fixpoint (l r : List Domain) (hl : l.Nodup)
    (h : prune_redundant_rules l = some r) : prune_redundant_rules r = some r := by
  have hsub := prune_some_sublist l r hl h
  have hclean := prune_some_clean l r hl h
  have hzero : ∀ d ∈ r, checkedCount r d = 0 := by
    intro d hd
    have hle : checkedCount r d ≤ checkedCount l d := by
      unfold checkedCount
      refine List.countP_mono_left ?_
      intro c _ hc
      simp only [decide_eq_true_eq] at hc ⊢
      exact hsub.subset hc
    have := hclean d hd
    omega
  exact pruneFold_no_removal r r r hzero

/-! ### Membership lemmas for the reconciler pipeline -/

theorem mem_validate_domain_list (idna : Domain → Option Domain) (S : List Domain)
    (d : Domain) (hd : d ∈ validate_domain_list idna S) :
    ∃ c ∈ S, idna c = some d := by
  unfold validate_domain_list at hd
  rw [List.mem_dedup] at hd
  exact List.mem_filterMap.mp hd

theorem mem_strip_to_psl (psl : Domain → Domain) (S : List Domain) (d : Domain)
    (hd : d ∈ strip_to_psl psl S) : d ∈ S.map psl := by
  unfold strip_to_psl at hd
  rwa [List.mem_dedup] at hd

theorem mem_eraseFold (psl : Domain → Domain) (ws : List Domain) :
    ∀ (c : List Domain) (x : Domain),
      x ∈ ws.foldl (fun c w => if psl w ∈ c then c.erase (psl w) else c) c → x ∈ c := by
  induction ws with
  | nil => intro c x hx; exact hx
  | cons w rest ih =>
    intro c x hx
    rw [List.foldl_cons] at hx
    have hx1 := ih _ x hx
    by_cases hw : psl w ∈ c
    · rw [if_pos hw] at hx1
      exact List.mem_of_mem_erase hx1
    · rwa [if_neg hw] at hx1

theorem mem_readdFold (psl : Domain → Domain) (wl : List Domain) (os : List Domain) :
    ∀ (c : List Domain) (x : Domain),
      x ∈ os.foldl (fun c od =>
        if od ∉ wl ∧ od ∉ c ∧ psl od ∉ c then od :: c else c) c →
      x ∈ c ∨ x ∈ os := by
  induction os with
  | nil => intro c x hx; exact Or.inl hx
  | cons od rest ih =>
    intro c x hx
    rw [List.foldl_cons] at hx
    rcases ih _ x hx with hx1 | hx1
    · by_cases hcond : od ∉ wl ∧ od ∉ c ∧ psl od ∉ c
      · rw [if_pos hcond] at hx1
        rcases List.mem_cons.mp hx1 with rfl | hx1
        · exact Or.inr (List.mem_cons_self _ _)
        · exact Or.inl hx1
      · rw [if_neg hcond] at hx1
        exact Or.inl hx1
    · exact Or.inr (List.mem_cons_of_mem _ hx1)

theorem mem_reconcilePsl (psl : Domain → Domain) (B wl : List Domain) (x : Domain)
    (hx : x ∈ reconcilePsl psl B wl) : x ∈ B ∨ x ∈ B.map psl := by
  unfold reconcilePsl at hx
  rcases mem_readdFold psl wl B _ x hx with hx1 | hx1
  · right
    by_cases hwl : wl.isEmpty
    · rw [if_pos hwl] at hx1
      exact mem_strip_to_psl psl B x hx1
    · rw [if_neg hwl] at hx1
      have hx2 := mem_eraseFold psl wl _ x hx1
      rw [List.mem_filter] at hx2
      exact mem_strip_to_psl psl B x hx2.1
  · exact Or.inl hx1

theorem mem_reconcileFinal (wl L c : List Domain) (x : Domain)
    (hx : x ∈ reconcileFinal wl L c) : x ∈ c ∨ x ∈ L := by
  unfold reconcileFinal at hx
  by_cases hL : L.isEmpty
  · rw [if_pos hL] at hx
    exact Or.inl (List.mem_filter.mp hx).1
  · rw [if_neg hL] at hx
    rcases List.mem_union_iff.mp hx with hx | hx
    · exact Or.inl (List.mem_filter.mp hx).1
    · exact Or.inr hx

theorem mem_reconcile (psl : Domain → Domain) (B wl L : List Domain) (bp : Bool)
    (mode : Mode) (r : List Domain) (h : reconcile psl B wl L bp mode = Except.ok r) :
    ∀ x ∈ r, x ∈ B ∨ x ∈ B.map psl ∨ x ∈ L := by
  intro x hx
  unfold reconcile at h
  by_cases h1 : bp = true ∧ mode ≠ Mode.hosts
  · rw [if_pos h1] at h
    cases h
    rcases mem_reconcileFinal wl L _ x hx with hx1 | hx1
    · rcases mem_reconcilePsl psl B wl x hx1 with hx2 | hx2
      · exact Or.inl hx2
      · exact Or.inr (Or.inl hx2)
    · exact Or.inr (Or.inr hx1)
  · rw [if_neg h1] at h
    by_cases h2 : bp = true ∧ mode = Mode.hosts
    · rw [if_pos h2] at h
      cases h
    · rw [if_neg h2] at h
      cases h
      rcases mem_reconcileFinal wl L _ x hx with hx1 | hx1
      · exact Or.inl hx1
      · exact Or.inr (Or.inr hx1)

/-! ### Normalization-artifact predicates and per-element properties -/

theorem mem_normalizeDots (tok : List Char) (c : Char) (hc : c ∈ normalizeDots tok) :
    c = '.' ∨ c ∈ tok := by
  unfold normalizeDots at hc
  rcases mem_joinChar _ _ _ hc with h | ⟨piece, hp, hcp⟩
  · exact Or.inl h
  · right
    exact splitOnPred_mem_subset _ tok piece (List.mem_filter.mp hp).1 c hcp

theorem normalizeDots_noEmptyLabels (tok : List Char) (hne : normalizeDots tok ≠ []) :
    noEmptyLabels (normalizeDots tok) = true := by
  unfold normalizeDots at hne ⊢
  set ps := (splitOnPred (fun c => c == '.') tok).filter (fun x => !x.isEmpty) with hps
  have hpsne : ps ≠ [] := by
    intro h0
    rw [h0] at hne
    exact hne rfl
  have hpieces : ∀ piece ∈ ps, ∀ c ∈ piece, (c == '.') = false := by
    intro piece hp c hc
    exact splitOnPred_mem_pred _ tok piece (List.mem_filter.mp hp).1 c hc
  unfold noEmptyLabels
  rw [splitOnPred_joinChar '.' ps hpsne hpieces]
  rw [List.all_eq_true]
  intro piece hp
  exact (List.mem_filter.mp hp).2

theorem mem_takeWhile_pred {p : Char → Bool} {l : List Char} {x : Char}
    (hx : x ∈ l.takeWhile p) : p x = true := by
  induction l with
  | nil => cases hx
  | cons a rest ih =>
    rw [List.takeWhile_cons] at hx
    by_cases hpa : p a = true
    · rw [if_pos hpa] at hx
      rcases List.mem_cons.mp hx with rfl | hx
      · exact hpa
      · exact ih hx
    · rw [if_neg hpa] at hx
      cases hx

theorem mem_hostsLineResidue (line : List Char) (c : Char)
    (hc : c ∈ hostsLineResidue line) : c ≠ '#' ∧ (c = ' ' ∨ isPyWs c = false) := by
  unfold hostsLineResidue at hc
  unfold remove_comments_from_bytes at hc
  have hhash := mem_takeWhile_pred hc
  have hc3 := (List.takeWhile_sublist _).subset hc
  have hc2 := mem_pyStrip _ c hc3
  refine ⟨by simpa using hhash, ?_⟩
  rcases mem_joinChar _ _ _ hc2 with h | ⟨piece, hp, hcp⟩
  · exact Or.inl h
  · right
    unfold pySplitWs at hp
    exact splitOnPred_mem_pred _ _ piece (List.mem_filter.mp hp).1 c hcp

theorem hosts_element_props (bs : List Char) (d : Domain)
    (hd : d ∈ extract_domain_set_from_hosts_format_bytes bs) :
    noHashChar d = true ∧ noWhitespace d = true ∧ (d ≠ [] → noEmptyLabels d = true) := by
  unfold extract_domain_set_from_hosts_format_bytes at hd
  rw [List.mem_dedup] at hd
  obtain ⟨line, _, hproc⟩ := List.mem_filterMap.mp hd
  unfold processHostsLine at hproc
  by_cases hsp : ' ' ∈ hostsLineResidue line
  · rw [if_pos hsp] at hproc
    rw [Option.some_inj] at hproc
    subst hproc
    set tok := (splitOnPred (fun c => c == ' ') (hostsLineResidue line)).getD 1 [] with htok
    have htokchars : ∀ c ∈ tok, (c == ' ') = false ∧ c ∈ hostsLineResidue line := by
      intro c hc
      rcases getD_eq_or_mem (splitOnPred (fun c => c == ' ') (hostsLineResidue line)) 1 []
          with h0 | hmem
      · rw [htok, h0] at hc; cases hc
      · exact ⟨splitOnPred_mem_pred _ _ tok (htok ▸ hmem) c hc,
          splitOnPred_mem_subset _ _ tok (htok ▸ hmem) c hc⟩
    refine ⟨?_, ?_, fun hne => normalizeDots_noEmptyLabels tok hne⟩
    · unfold noHashChar
      rw [List.all_eq_true]
      intro c hc
      rcases mem_normalizeDots tok c hc with rfl | hc
      · decide
      · have := (mem_hostsLineResidue line c ((htokchars c hc).2)).1
        simpa using this
    · unfold noWhitespace
      rw [List.all_eq_true]
      intro c hc
      rcases mem_normalizeDots tok c hc with rfl | hc
      · decide
      · have hnsp : (c == ' ') = false := (htokchars c hc).1
        rcases (mem_hostsLineResidue line c ((htokchars c hc).2)).2 with rfl | hws
        · simp at hnsp
        · simp [hws]
  · rw [if_neg hsp] at hproc
    cases hproc

theorem dnsgate_element_props (bs : List Char) (d : Domain)
    (hd : d ∈ extract_domain_set_from_dnsgate_format_file bs) :
    d ≠ [] ∧ noHashChar d = true ∧ noEmptyLabels d = true := by
  unfold extract_domain_set_from_dnsgate_format_file at hd
  rw [List.mem_dedup] at hd
  rw [List.mem_filter] at hd
  obtain ⟨hd, hne⟩ := hd
  obtain ⟨line, _, hproc⟩ := List.mem_map.mp hd
  have hdne : d ≠ [] := by
    intro h0
    rw [h0] at hne
    simp at hne
  subst hproc
  unfold processDnsgateLine at hdne ⊢
  set tok := remove_comments_from_bytes (pyStrip line) with htokdef
  refine ⟨hdne, ?_, normalizeDots_noEmptyLabels tok hdne⟩
  unfold noHashChar
  rw [List.all_eq_true]
  intro c hc
  rcases mem_normalizeDots tok c hc with rfl | hc
  · decide
  · rw [htokdef] at hc
    unfold remove_comments_from_bytes at hc
    have hh := mem_takeWhile_pred hc
    simpa using hh

end Dnsgate

namespace Dnsgate

theorem mem_reconcileFinal_right (wl L c : List Domain) (d : Domain) (hd : d ∈ L) :
    d ∈ reconcileFinal wl L c := by
  unfold reconcileFinal
  have hne : ¬(L.isEmpty = true) := by
    simp only [List.isEmpty_iff]
    exact List.ne_nil_of_mem hd
  rw [if_neg hne]
  exact List.mem_union_iff.mpr (Or.inr hd)

theorem reconcile_psl_hosts_error (psl : Domain → Domain) (B wl L : List Domain) :
    reconcile psl B wl L true Mode.hosts = Except.error GenError.blockAtPslInHostsMode := by
  unfold reconcile
  rw [if_neg (by simp), if_pos (by exact ⟨rfl, rfl⟩)]

theorem generate_ok_inv (psl : Domain → Domain) (idna : Domain → Option Domain)
    (B W L : List Domain) (bp : Bool) (mode : Mode) (out : List Domain)
    (h : generate psl idna B W L bp mode = Except.ok out) :
    ∃ combined pruned,
      reconcile psl (validate_domain_list idna B)
          (if W.isEmpty then W else validate_domain_list idna W) L bp mode
        = Except.ok combined ∧
      prune_redundant_rules (validate_domain_list idna combined) = some pruned ∧
      (group_by_tld pruned).isEmpty = false ∧
      out = group_by_tld pruned := by
  unfold generate at h
  cases hr : reconcile psl (validate_domain_list idna B)
      (if W.isEmpty then W else validate_domain_list idna W) L bp mode with
  | error e => rw [hr] at h; simp at h
  | ok combined =>
    rw [hr] at h
    replace h : (match prune_redundant_rules (validate_domain_list idna combined) with
        | none => Except.error GenError.pruneKeyError
        | some pruned =>
          if (group_by_tld pruned).isEmpty = true then Except.error GenError.emptyBlacklist
          else Except.ok (group_by_tld pruned)) = Except.ok out := h
    cases hp : prune_redundant_rules (validate_domain_list idna combined) with
    | none => rw [hp] at h; simp at h
    | some pruned =>
      rw [hp] at h
      replace h : (if (group_by_tld pruned).isEmpty = true
          then Except.error GenError.emptyBlacklist
          else Except.ok (group_by_tld pruned)) = Except.ok out := h
      by_cases he : (group_by_tld pruned).isEmpty = true
      · rw [if_pos he] at h; simp at h
      · rw [if_neg he] at h
        refine ⟨combined, pruned, rfl, hp, by simpa using he, ?_⟩
        injection h with h2
        exact h2.symm

end Dnsgate

namespace Dnsgate

/-! ### The claims -/

/-- C1, counterexample.  With root reduction enabled (mode dnsmasq), raw
blacklist containing only ads.example.com, whitelist containing example.com,
empty local override, and a public-suffix dataset containing com, reconcile
does NOT return the empty set, contrary to the claim. -/
theorem C1_counterexample_readd_not_blocked :
    reconcile (toPublicRoot [["com".toList]]) ["ads.example.com".toList]
      ["example.com".toList] [] true Mode.dnsmasq ≠ Except.ok [] := by
  intro h
  have h2 : reconcile (toPublicRoot [["com".toList]]) ["ads.example.com".toList]
      ["example.com".toList] [] true Mode.dnsmasq
      = Except.ok ["ads.example.com".toList] := by rfl
  rw [h2] at h
  simp at h

/-- C1, amended.  In the same scenario reconcile returns the singleton
ads.example.com: the reduced root example.com is removed by whitelist
subtraction, but the re-addition pass tests whether the domain's public root
is in the current reduced set (from which example.com was just removed), not
whether it is whitelisted, so the full hostname is re-added. -/
theorem C1_amended_readd_full_hostname :
    reconcile (toPublicRoot [["com".toList]]) ["ads.example.com".toList]
      ["example.com".toList] [] true Mode.dnsmasq
      = Except.ok ["ads.example.com".toList] := by rfl

/-- C2: the claim that prune is total fails in the code.  On the set
containing com, com.foo and a.foo.com, the inner loop of
prune_redundant_rules finds two checked joins of a.foo.com in the snapshot
(com and com.foo) and calls set.remove twice; the second raises KeyError,
embedded as none. -/
theorem C2_prune_keyerror_on_double_hit :
    prune_redundant_rules ["com".toList, "com.foo".toList, "a.foo.com".toList]
      = none := by decide

/-- C3: the ancestor invariant fails in the code.  On the set containing
example.com and a.example.com, prune_redundant_rules removes nothing: the
membership probe joins the reversed label prefix (testing com.example, never
example.com), so the surviving a.example.com is still covered by the
co-surviving proper ancestor example.com. -/
theorem C3_prune_misses_multilabel_ancestor :
    prune_redundant_rules ["example.com".toList, "a.example.com".toList]
      = some ["example.com".toList, "a.example.com".toList] ∧
    isProperAncestor ("example.com".toList) ("a.example.com".toList) = true := by
  decide

/-- C4: prune is idempotent.  Whenever a pass succeeds, every survivor has no
checked join in the surviving set (it had none even in the original snapshot),
so a second pass removes nothing and cannot raise; a failed pass propagates
its error unchanged. -/
theorem C4_prune_idempotent (l : List Domain) (hl : l.Nodup) :
    (prune_redundant_rules l).bind prune_redundant_rules = prune_redundant_rules l := by
  cases h : prune_redundant_rules l with
  | none => rfl
  | some r =>
    simpa using prune_fixpoint l r hl h

/-- Witness for C4 at a concrete two-element set. -/
theorem C4_witness :
    (["example.com".toList, "ads.example.com".toList] : List Domain).Nodup ∧
    (prune_redundant_rules ["example.com".toList, "ads.example.com".toList]).bind
        prune_redundant_rules
      = prune_redundant_rules ["example.com".toList, "ads.example.com".toList] :=
  ⟨by decide, C4_prune_idempotent _ (by decide)⟩

/-- C5: the local blacklist override always wins.  Whatever the mode, the
whitelist, and the public-root function, every domain of the custom blacklist
is in the reconciled set, because the exact whitelist subtraction happens
before the unconditional union of the custom blacklist. -/
theorem C5_local_override_wins (psl : Domain → Domain) (B wl L : List Domain)
    (bp : Bool) (mode : Mode) (r : List Domain)
    (h : reconcile psl B wl L bp mode = Except.ok r) :
    ∀ d ∈ L, d ∈ r := by
  intro d hd
  unfold reconcile at h
  by_cases h1 : bp = true ∧ mode ≠ Mode.hosts
  · rw [if_pos h1] at h
    cases h
    exact mem_reconcileFinal_right wl L _ d hd
  · rw [if_neg h1] at h
    by_cases h2 : bp = true ∧ mode = Mode.hosts
    · rw [if_pos h2] at h
      cases h
    · rw [if_neg h2] at h
      cases h
      exact mem_reconcileFinal_right wl L _ d hd

/-- Witness for C5: b.com is both whitelisted and in the local blacklist, and
ends up in the reconciled set. -/
theorem C5_witness :
    ("b.com".toList : Domain) ∈ (["a.com".toList, "b.com".toList] : List Domain) :=
  C5_local_override_wins (fun d => d) ["a.com".toList] ["b.com".toList]
    ["b.com".toList] false Mode.dnsmasq ["a.com".toList, "b.com".toList] (by rfl)
    ("b.com".toList) (by decide)

/-- C6: configuration errors are fatal and leave the output untouched.  Root
reduction under hosts mode fails with the dedicated error for every input,
and a successful run never has an empty final rule set (an empty
reconciliation aborts before the output is written; in the embedding an
error result carries no output lines at all). -/
theorem C6_configuration_errors_abort_run :
    (∀ (psl : Domain → Domain) (idna : Domain → Option Domain) (B W L : List Domain),
      generate psl idna B W L true Mode.hosts
        = Except.error GenError.blockAtPslInHostsMode) ∧
    (∀ (psl : Domain → Domain) (idna : Domain → Option Domain) (B W L : List Domain)
      (bp : Bool) (mode : Mode) (out : List Domain),
      generate psl idna B W L bp mode = Except.ok out → out ≠ []) := by
  constructor
  · intro psl idna B W L
    unfold generate
    rw [reconcile_psl_hosts_error]
  · intro psl idna B W L bp mode out h
    obtain ⟨combined, pruned, _, _, hne, rfl⟩ :=
      generate_ok_inv psl idna B W L bp mode out h
    simpa [List.isEmpty_iff] using hne

/-- Witness for C6 at concrete inputs: the hosts-mode abort, and a successful
run whose output is nonempty. -/
theorem C6_witness :
    generate (fun d => d) (fun d => some d) [] [] [] true Mode.hosts
        = Except.error GenError.blockAtPslInHostsMode ∧
    (["example.com".toList] : List Domain) ≠ [] :=
  ⟨C6_configuration_errors_abort_run.1 (fun d => d) (fun d => some d) [] [] [],
   C6_configuration_errors_abort_run.2 (fun d => d) (fun d => some d)
     ["example.com".toList] [] [] false Mode.dnsmasq ["example.com".toList] (by rfl)⟩

/-- C7: group_by_tld returns a permutation of its input, sorted by the
reversed-label lexicographic key, and on the claim's example orders
ads.example.com before tracker.example.com. -/
theorem C7_group_by_tld_is_sorted_permutation :
    (∀ l : List Domain, (group_by_tld l).Perm l ∧ List.Sorted tldKeyLe (group_by_tld l)) ∧
    group_by_tld ["tracker.example.com".toList, "ads.example.com".toList]
      = ["ads.example.com".toList, "tracker.example.com".toList] :=
  ⟨fun l => ⟨group_by_tld_perm l, group_by_tld_sorted l⟩, by decide⟩

/-- C8, counterexample.  The hosts-format extractor inserts, rather than
rejects, the empty string: the line 0.0.0.0 followed by a bare dot has a
second field that normalizes to the empty domain, and it is added to the set
(the claim requires every element to be non-empty). -/
theorem C8_counterexample_empty_string_inserted :
    ([] : Domain) ∈ extract_domain_set_from_hosts_format_bytes ("0.0.0.0 .".toList) := by
  decide

/-- C8, amended.  Every element of a hosts-format extraction is free of
comment markers and whitespace, and has no empty labels unless it is the
empty string itself, which the extractor may insert; every element of a
dnsgate-format extraction is nonempty with no comment markers and no empty
labels, but (unlike what the claim says) may retain interior or trailing
whitespace, since only the line's outer whitespace is stripped before
comment removal. -/
theorem C8_amended_artifact_freedom :
    ∀ bs : List Char,
      (∀ d ∈ extract_domain_set_from_hosts_format_bytes bs,
        noHashChar d = true ∧ noWhitespace d = true ∧ (d ≠ [] → noEmptyLabels d = true)) ∧
      (∀ d ∈ extract_domain_set_from_dnsgate_format_file bs,
        d ≠ [] ∧ noHashChar d = true ∧ noEmptyLabels d = true) :=
  fun bs =>
    ⟨fun d hd => hosts_element_props bs d hd, fun d hd => dnsgate_element_props bs d hd⟩

/-- Witness for C8 at concrete extractions. -/
theorem C8_witness :
    (noHashChar ("ads.example.com".toList) = true ∧
      noWhitespace ("ads.example.com".toList) = true ∧
      ("ads.example.com".toList ≠ [] → noEmptyLabels ("ads.example.com".toList) = true)) ∧
    ("ads.example.com".toList ≠ [] ∧ noHashChar ("ads.example.com".toList) = true ∧
      noEmptyLabels ("ads.example.com".toList) = true) :=
  ⟨(C8_amended_artifact_freedom ("0.0.0.0 ads.example.com".toList)).1
      ("ads.example.com".toList) (by decide),
   (C8_amended_artifact_freedom ("ads.example.com\n".toList)).2
      ("ads.example.com".toList) (by decide)⟩

/-- C9, counterexample.  A hosts-format line that contains no whitespace
after comment stripping contributes nothing: the extractor only adds a
domain inside its hosts-format branch, so the bare line example.com yields
the empty set, while the claim requires it to contribute example.com. -/
theorem C9_counterexample_whitespace_free_line_ignored :
    extract_domain_set_from_hosts_format_bytes ("example.com".toList) = [] := by decide

/-- C9, amended.  The whole-text-as-token rule belongs to the dnsgate-native
list parser: a line of a dnsgate-format file whose normalized token is
nonempty contributes that token to the extracted set, while the hosts-format
extractor ignores every line whose collapsed comment-stripped residue has no
space. -/
theorem C9_amended_token_rule :
    (∀ (bs line : List Char), line ∈ pySplitlines bs → processDnsgateLine line ≠ [] →
      processDnsgateLine line ∈ extract_domain_set_from_dnsgate_format_file bs) ∧
    (∀ line : List Char, ' ' ∉ hostsLineResidue line → processHostsLine line = none) := by
  constructor
  · intro bs line hline hne
    unfold extract_domain_set_from_dnsgate_format_file
    rw [List.mem_dedup, List.mem_filter]
    refine ⟨List.mem_map_of_mem _ hline, ?_⟩
    simpa [List.isEmpty_iff] using hne
  · intro line hsp
    unfold processHostsLine
    rw [if_neg hsp]

/-- Witness for C9 at concrete lines. -/
theorem C9_witness :
    ("example.com".toList : Domain) ∈
      extract_domain_set_from_dnsgate_format_file ("example.com\n".toList) ∧
    processHostsLine ("example.com".toList) = none :=
  ⟨C9_amended_token_rule.1 ("example.com\n".toList) ("example.com".toList)
      (by decide) (by decide),
   C9_amended_token_rule.2 ("example.com".toList) (by decide)⟩

/-- C10: the pipeline never fabricates domains.  Every domain of a
successful run's final rule set is the IDNA re-encoding of a domain that is
either a validated source-blacklist domain, the public root of one, or a
custom-blacklist domain: reconciliation, pruning and grouping only select
among these. -/
theorem C10_no_fabricated_domains (psl : Domain → Domain) (idna : Domain → Option Domain)
    (B W L : List Domain) (bp : Bool) (mode : Mode) (out : List Domain)
    (h : generate psl idna B W L bp mode = Except.ok out) :
    ∀ d ∈ out, ∃ c, (c ∈ validate_domain_list idna B ∨
      c ∈ (validate_domain_list idna B).map psl ∨ c ∈ L) ∧ idna c = some d := by
  intro d hd
  obtain ⟨combined, pruned, hr, hp, _, rfl⟩ :=
    generate_ok_inv psl idna B W L bp mode out h
  have hd1 : d ∈ pruned := (group_by_tld_perm pruned).subset hd
  have hval : (validate_domain_list idna combined).Nodup := List.nodup_dedup _
  have hd2 : d ∈ validate_domain_list idna combined :=
    (prune_some_sublist _ _ hval hp).subset hd1
  obtain ⟨c, hc, hcd⟩ := mem_validate_domain_list idna combined d hd2
  exact ⟨c, mem_reconcile psl _ _ L bp mode combined hr c hc, hcd⟩

/-- Witness for C10 at a concrete successful run. -/
theorem C10_witness :
    ∃ c, (c ∈ validate_domain_list (fun d => some d) ["example.com".toList] ∨
      c ∈ (validate_domain_list (fun d => some d) ["example.com".toList]).map
        (fun d => d) ∨
      c ∈ ([] : List Domain)) ∧ (fun d => some d) c = some ("example.com".toList) :=
  C10_no_fabricated_domains (fun d => d) (fun d => some d) ["example.com".toList]
    [] [] false Mode.dnsmasq ["example.com".toList] (by rfl)
    ("example.com".toList) (by decide)

end Dnsgate
